import Mathlib

/-!
# Verification of `sjtu::linked_hashmap` (src/linked_hashmap.hpp)

A shallow embedding of the linked hash map: a hash table whose nodes also
form a doubly linked list recording insertion order.

Modelling conventions (all derived from the source):

* The container is instantiated at `Key = Nat`, `T = Nat`, with
  `Hash = id` and `Equal = (· = ·)` (a lawful instantiation of the
  template parameters `std::hash` / `std::equal_to`).
* Heap nodes are identified by natural-number ids.  In every container
  the `head` sentinel has id 0 and the `tail` sentinel id 1; interior
  nodes receive fresh ids 2, 3, ... from an allocation counter
  (`nextId`).  Container instances themselves carry an identity `self`
  (the C++ object address) used by the iterator provenance checks.
* `node->data` (a `value_type*`, null on sentinels and unallocated ids)
  is the partial map `data : Nat → Option value_type`.
* The intrusive `prev`/`next` pointers of the insertion-order list are
  represented by the list `order` of interior node ids from
  `head->next` up to (excluding) `tail`; the derived functions
  `nodeNext` / `nodePrev` recover the pointer fields.  Every pointer
  update in the source (`append before tail`, `unlink`) is translated
  to the corresponding list operation.
* A bucket's singly linked collision chain (`hash_next`) is the list of
  node ids in chain order; `buckets` is the bucket array.
  `bucket_count` is `buckets.length` (the source keeps the two equal).
* `element_count` is kept as an explicit field exactly as in the source.
* Exceptions become `Except` results; operations that may throw return
  the resulting state alongside, so that "throw" visibly leaves the
  state it was called on.  `exceptions.hpp` is not part of src/;
  modelled from the spec: it only supplies the distinct error tags
  (`index_out_of_bound` = the spec's NotFound, `invalid_iterator` = the
  spec's InvalidPosition).
-/

set_option autoImplicit false

namespace LinkedHashmap

/-- `value_type = pair<const Key, T>` at `Key = T = Nat`. -/
structure value_type where
  first : Nat
  second : Nat
deriving DecidableEq, Repr

/-- Modelled from the spec: the two exception kinds of `exceptions.hpp`
(not under src/): `index_out_of_bound` is the spec's NotFound,
`invalid_iterator` the spec's InvalidPosition. -/
inductive exc where
  | index_out_of_bound
  | invalid_iterator
deriving DecidableEq, Repr

/-- An `iterator` / `const_iterator`: a node pointer and a pointer to the
owning map (both null in a default-constructed iterator).  The two
iterator classes of the source have identical state and identical
operation bodies, so a single model type stands for both. -/
structure iterator where
  node : Option Nat
  map : Option Nat
deriving DecidableEq, Repr

/-- The container state.  `self` is the identity of this instance
(the C++ `this` address). -/
structure linked_hashmap where
  self : Nat
  order : List Nat
  data : Nat → Option value_type
  buckets : List (List Nat)
  element_count : Nat
  nextId : Nat

namespace linked_hashmap

/-- `data->first` of a possibly-null `data` pointer (0 when null: the
source never reads the key of an entry-less node). -/
def keyOfData : Option value_type → Nat
  | some e => e.first
  | none => 0

/-- `data->second` of a possibly-null `data` pointer. -/
def valOfData : Option value_type → Nat
  | some e => e.second
  | none => 0

/-- `node->data->first` (0 when the node has no entry: sentinels or
unallocated ids, whose `data` pointer is null in the source). -/
def keyOf (m : linked_hashmap) (nid : Nat) : Nat :=
  keyOfData (m.data nid)

/-- `node->data->second`, with the same convention as `keyOf`. -/
def valOf (m : linked_hashmap) (nid : Nat) : Nat :=
  valOfData (m.data nid)

/-- The default constructor: empty list (`head->next = tail`),
`INITIAL_BUCKET_COUNT = 16` empty buckets, no elements. -/
def empty (selfId : Nat) : linked_hashmap :=
  { self := selfId
    order := []
    data := fun _ => none
    buckets := List.replicate 16 []
    element_count := 0
    nextId := 2 }

/-- `find_node`: hash the key, walk the bucket's collision chain with the
equality predicate, return the first matching node. -/
def find_node (m : linked_hashmap) (key : Nat) : Option Nat :=
  let idx := key % m.buckets.length
  (m.buckets.getD idx []).find? (fun nid => m.keyOf nid == key)

/-- One step of re-chaining: prepend node `nid` to the bucket selected by
its key (`curr->hash_next = buckets[idx]; buckets[idx] = curr`). -/
def chainStep (f : Nat → Nat) (L : Nat) (acc : List (List Nat)) (nid : Nat) :
    List (List Nat) :=
  acc.set (f nid % L) (nid :: acc.getD (f nid % L) [])

/-- `rehash(new_bucket_count)`: allocate a fresh bucket array and walk the
order list from `head->next` to `tail`, prepending each node to its new
bucket. -/
def rehash (m : linked_hashmap) (new_bucket_count : Nat) : linked_hashmap :=
  { m with
    buckets :=
      m.order.foldl (chainStep m.keyOf new_bucket_count)
        (List.replicate new_bucket_count []) }

/-- `check_and_rehash`: double the bucket array when
`element_count > bucket_count * MAX_LOAD_FACTOR`.  With
`MAX_LOAD_FACTOR = 0.75` and `bucket_count` a power of two times 16 the
floating comparison is exact and equals `4 * element_count > 3 * bucket_count`. -/
def check_and_rehash (m : linked_hashmap) : linked_hashmap :=
  if 3 * m.buckets.length < 4 * m.element_count then
    m.rehash (m.buckets.length * 2)
  else m

/-- `insert`: if the key is already present, return an iterator to the
existing node and `false`, touching nothing.  Otherwise rehash if needed
(the check runs before the new element is counted), create a node, link
it immediately before `tail`, prepend it to its bucket chain, and bump
`element_count`. -/
def insert (m : linked_hashmap) (k v : Nat) : linked_hashmap × iterator × Bool :=
  match m.find_node k with
  | some existing => (m, ⟨some existing, some m.self⟩, false)
  | none =>
    let m1 := m.check_and_rehash
    let nid := m1.nextId
    let idx := k % m1.buckets.length
    ({ m1 with
        order := m1.order ++ [nid]
        data := fun x => if x = nid then some ⟨k, v⟩ else m1.data x
        buckets := m1.buckets.set idx (nid :: m1.buckets.getD idx [])
        element_count := m1.element_count + 1
        nextId := nid + 1 },
     ⟨some nid, some m.self⟩, true)

/-- `erase(pos)`: throw `invalid_iterator` when the iterator does not
belong to this map or sits on a sentinel; otherwise unlink the node from
the order list, splice it out of its bucket chain, destroy it and
decrement the count.  The `none` node case after the guard corresponds
to dereferencing a null node pointer in the source (unreachable through
the public interface); it is modelled as the same error. -/
def erase (m : linked_hashmap) (pos : iterator) : Except exc Unit × linked_hashmap :=
  if pos.map ≠ some m.self ∨ pos.node = some 1 ∨ pos.node = some 0 then
    (Except.error exc.invalid_iterator, m)
  else
    match pos.node with
    | none => (Except.error exc.invalid_iterator, m)
    | some nid =>
      let idx := m.keyOf nid % m.buckets.length
      (Except.ok (),
       { m with
         order := m.order.erase nid
         buckets := m.buckets.set idx ((m.buckets.getD idx []).erase nid)
         data := fun x => if x = nid then none else m.data x
         element_count := m.element_count - 1 })

/-- `clear()`: destroy every node, reset the list to `head ↔ tail` and
every bucket to empty; the bucket capacity is kept. -/
def clear (m : linked_hashmap) : linked_hashmap :=
  { m with
    order := []
    data := fun _ => none
    buckets := List.replicate m.buckets.length []
    element_count := 0 }

/-- `at(key)` (mutable overload): value of the matching node, or
`index_out_of_bound` when absent. -/
def atMut (m : linked_hashmap) (key : Nat) : Except exc Nat :=
  match m.find_node key with
  | some nid => Except.ok (m.valOf nid)
  | none => Except.error exc.index_out_of_bound

/-- `at(key) const`: same body as the mutable overload. -/
def atConst (m : linked_hashmap) (key : Nat) : Except exc Nat :=
  match m.find_node key with
  | some nid => Except.ok (m.valOf nid)
  | none => Except.error exc.index_out_of_bound

/-- `operator[](key) const`: delegates to `at`. -/
def bracketConst (m : linked_hashmap) (key : Nat) : Except exc Nat :=
  m.atConst key

/-- `find(key)`: iterator at the matching node, else `end()`. -/
def findIt (m : linked_hashmap) (key : Nat) : iterator :=
  match m.find_node key with
  | some nid => ⟨some nid, some m.self⟩
  | none => ⟨some 1, some m.self⟩

/-- `begin()`: iterator at `head->next` (= `tail` when empty). -/
def beginIt (m : linked_hashmap) : iterator :=
  ⟨some (m.order.headD 1), some m.self⟩

/-- `end()`: iterator at the `tail` sentinel. -/
def endIt (m : linked_hashmap) : iterator :=
  ⟨some 1, some m.self⟩

/-- `count(key)`: 1 when present, 0 otherwise. -/
def countKey (m : linked_hashmap) (key : Nat) : Nat :=
  match m.find_node key with
  | some _ => 1
  | none => 0

/-- `size()`. -/
def size (m : linked_hashmap) : Nat :=
  m.element_count

/-- The entries in list (= insertion) order, as key/value pairs. -/
def entriesList (m : linked_hashmap) : List (Nat × Nat) :=
  m.order.map (fun nid => (m.keyOf nid, m.valOf nid))

/-- The keys in list order. -/
def keys (m : linked_hashmap) : List Nat :=
  m.order.map m.keyOf

/-- The copy constructor: fresh sentinels and an empty bucket array of
the source's capacity (`init_buckets(other.bucket_count)`), then
`insert(*(curr->data))` for each source node in list order. -/
def copy (other : linked_hashmap) (newSelf : Nat) : linked_hashmap :=
  let base : linked_hashmap :=
    { self := newSelf
      order := []
      data := fun _ => none
      buckets := List.replicate other.buckets.length []
      element_count := 0
      nextId := 2 }
  other.entriesList.foldl (fun acc e => (acc.insert e.1 e.2).1) base

/-- Copy assignment: self-assignment check, then `clear()` followed by
inserting the source's entries in list order. -/
def assign (m other : linked_hashmap) : linked_hashmap :=
  if m.self = other.self then m
  else other.entriesList.foldl (fun acc e => (acc.insert e.1 e.2).1) m.clear

/-- `node->next` as a function of the order list: from `head` to the
first node, from the node at index `i` to the one at `i+1` (or `tail`).
A dangling id has no defined successor in the source (freed memory); the
model returns `tail`. -/
def nodeNext (m : linked_hashmap) (n : Nat) : Nat :=
  if n = 0 then m.order.headD 1
  else
    match m.order.findIdx? (fun x => x == n) with
    | some i => m.order.getD (i + 1) 1
    | none => 1

/-- `node->prev`: from `tail` to the last node, from the node at index
`i` to the one at `i-1` (or `head`).  `head->prev` is a null pointer in
the source and unreachable here; the model returns `head`. -/
def nodePrev (m : linked_hashmap) (n : Nat) : Nat :=
  if n = 1 then m.order.getLastD 0
  else
    match m.order.findIdx? (fun x => x == n) with
    | some i => if i = 0 then 0 else m.order.getD (i - 1) 0
    | none => 0

/-- `operator++` (pre and post increment share this guard and step):
throw when the node pointer is null or equals the owning map's `tail`,
else move to `node->next`.  The map argument is the container the
iterator's `map` field points to; the null check precedes every node or
map access in the source. -/
def stepFwd (m : linked_hashmap) (it : iterator) : Except exc iterator :=
  if it.node = none ∨ it.node = some 1 then Except.error exc.invalid_iterator
  else Except.ok ⟨some (m.nodeNext (it.node.getD 0)), it.map⟩

/-- `operator--`: throw when the node pointer is null or `node->prev`
is the owning map's `head`, else move to `node->prev`. -/
def stepBwd (m : linked_hashmap) (it : iterator) : Except exc iterator :=
  if it.node = none ∨ (it.node.map m.nodePrev) = some 0 then
    Except.error exc.invalid_iterator
  else Except.ok ⟨it.node.map m.nodePrev, it.map⟩

/-- `operator*` / `operator->`: `*(node->data)`.  On a sentinel (or a
null/dangling node) the data pointer is null and there is no entry to
read (undefined behavior in the source); the model yields `none`. -/
def deref (m : linked_hashmap) (it : iterator) : Option value_type :=
  match it.node with
  | none => none
  | some nid => m.data nid

/-- `operator==` on iterators: same node pointer and same map pointer. -/
def iterEq (a b : iterator) : Bool :=
  a.node == b.node && a.map == b.map

/-- A position that may legitimately be presented to container `m`:
if it claims to belong to `m` it is `end()` or sits on a live node.
(Null positions and positions of other containers are unconstrained.) -/
def PosOK (m : linked_hashmap) (p : iterator) : Prop :=
  p.map = some m.self → p.node = some 1 ∨ ∃ n ∈ m.order, p.node = some n

/-- Iteration as the source performs it: repeatedly follow `node->next`
from a starting node until `tail`, collecting each entry.  Fuel bounds
the recursion (the source's loop terminates because the list is finite). -/
def walk (m : linked_hashmap) : Nat → Nat → List (Nat × Nat)
  | 0, _ => []
  | fuel + 1, n =>
    if n = 1 then []
    else (m.keyOf n, m.valOf n) :: m.walk fuel (m.nodeNext n)

/-- The full iteration `begin()` to `end()`. -/
def iterList (m : linked_hashmap) : List (Nat × Nat) :=
  m.walk (m.element_count + 1) (m.order.headD 1)

end linked_hashmap

/-- A client-visible operation for the order-stability property:
insert a pair, or erase the position `find` returns for a key. -/
inductive Op where
  | ins (k v : Nat)
  | del (k : Nat)
deriving DecidableEq, Repr

/-- Run one operation: `del k` performs `erase(find(k))`, whose failure
(when `find` returns `end()`) leaves the map unchanged. -/
def runStep (m : linked_hashmap) : Op → linked_hashmap
  | .ins k v => (m.insert k v).1
  | .del k => (m.erase (m.findIt k)).2

/-- Run a sequence of operations on an initially empty map. -/
def runOps (ops : List Op) : linked_hashmap :=
  ops.foldl runStep (linked_hashmap.empty 0)

/-- Modelled from the spec: the reference entry sequence.  Inserting an
already-present key changes nothing (so a key keeps the position of its
first successful insert); inserting a new key appends; erasing removes
the key's entry and keeps all other positions. -/
def specStep : List (Nat × Nat) → Op → List (Nat × Nat)
  | l, .ins k v => if l.any (fun e => e.1 == k) then l else l ++ [(k, v)]
  | l, .del k => l.filter (fun e => e.1 != k)

/-- The reference entry sequence after a whole operation sequence. -/
def specRun (ops : List Op) : List (Nat × Nat) :=
  ops.foldl specStep []

namespace linked_hashmap

/-- Structural well-formedness, maintained by every operation. -/
structure WF (m : linked_hashmap) : Prop where
  bucket_len : 2 ≤ m.buckets.length
  count_eq : m.element_count = m.order.length
  order_nodup : m.order.Nodup
  order_ids : ∀ nid ∈ m.order, 2 ≤ nid ∧ nid < m.nextId
  two_le_nextId : 2 ≤ m.nextId
  keys_nodup : (m.order.map m.keyOf).Nodup
  bucket_eq : ∀ i < m.buckets.length,
    m.buckets.getD i [] =
      (m.order.filter (fun nid => m.keyOf nid % m.buckets.length == i)).reverse
  data_live : ∀ nid, (m.data nid).isSome = true ↔ nid ∈ m.order

/-- Well-formedness plus the load-factor bound that insertion maintains:
the count exceeds `bucket_count * 0.75` by at most one element. -/
def Inv (m : linked_hashmap) : Prop :=
  WF m ∧ 4 * m.element_count ≤ 3 * m.buckets.length + 4

/-- The container states reachable through the public interface.  The
`erase` step excludes only the use-after-free the spec forbids (a
position that claims to belong to `m` but is neither a sentinel nor a
live node); `operator[]` on a map `m` equals `(m.insert k 0).1` in
either branch and is covered by the `insert` step. -/
inductive Reachable : linked_hashmap → Prop where
  | empty (s : Nat) : Reachable (linked_hashmap.empty s)
  | insert {m : linked_hashmap} (k v : Nat) :
      Reachable m → Reachable (m.insert k v).1
  | erase {m : linked_hashmap} (it : iterator) :
      Reachable m →
      (it.map = some m.self →
        it.node = some 0 ∨ it.node = some 1 ∨ ∃ n ∈ m.order, it.node = some n) →
      Reachable (m.erase it).2
  | clear {m : linked_hashmap} : Reachable m → Reachable m.clear
  | copy {m : linked_hashmap} (s : Nat) : Reachable m → Reachable (m.copy s)
  | assign {m other : linked_hashmap} :
      Reachable m → Reachable other → Reachable (m.assign other)

end linked_hashmap

/-! ## List helper lemmas -/

theorem find?_eq_some_of_unique {p : Nat → Bool} {l : List Nat} {a : Nat}
    (ha : a ∈ l) (hpa : p a = true) (huniq : ∀ x ∈ l, p x = true → x = a) :
    l.find? p = some a := by
  induction l with
  | nil => cases ha
  | cons b l ih =>
    rcases List.mem_cons.1 ha with rfl | hmem
    · simp [List.find?, hpa]
    · by_cases hb : p b = true
      · have : b = a := huniq b (List.mem_cons_self b l) hb
        subst this
        simp [List.find?, hb]
      · rw [Bool.not_eq_true] at hb
        simp only [List.find?, hb]
        exact ih hmem fun x hx hpx => huniq x (List.mem_cons_of_mem b hx) hpx

theorem findIdx?_append_cons {n : Nat} (l₁ l₂ : List Nat) (h : n ∉ l₁) :
    (l₁ ++ n :: l₂).findIdx? (fun x => x == n) = some l₁.length := by
  induction l₁ with
  | nil => simp
  | cons a l₁ ih =>
    have hne : (a == n) = false := by
      simp only [beq_eq_false_iff_ne]
      intro heq
      exact h (heq ▸ List.mem_cons_self a l₁)
    simp only [List.cons_append, List.findIdx?_cons, hne, if_neg Bool.false_ne_true,
      List.findIdx?_start_succ]
    rw [ih fun hmem => h (List.mem_cons_of_mem a hmem)]
    simp [Nat.add_comm]

theorem foldl_chain_length (f : Nat → Nat) (L : Nat) (l : List Nat)
    (bs : List (List Nat)) :
    (l.foldl (linked_hashmap.chainStep f L) bs).length = bs.length := by
  induction l generalizing bs with
  | nil => rfl
  | cons x l ih =>
    rw [List.foldl_cons, ih]
    simp [linked_hashmap.chainStep]

theorem foldl_chain_getD (f : Nat → Nat) (L : Nat) (l : List Nat) :
    ∀ (bs : List (List Nat)), bs.length = L → ∀ i < L,
      (l.foldl (linked_hashmap.chainStep f L) bs).getD i []
        = (l.filter (fun nid => f nid % L == i)).reverse ++ bs.getD i [] := by
  induction l with
  | nil => intro bs _ i _; simp
  | cons x l ih =>
    intro bs hbs i hi
    have hxlt : f x % L < L := Nat.mod_lt _ (Nat.lt_of_le_of_lt (Nat.zero_le i) hi)
    have hstep : (linked_hashmap.chainStep f L bs x).length = L := by
      simp [linked_hashmap.chainStep, hbs]
    rw [List.foldl_cons, ih _ hstep i hi]
    by_cases hx : f x % L = i
    · subst hx
      have hget : (linked_hashmap.chainStep f L bs x).getD (f x % L) []
          = x :: bs.getD (f x % L) [] := by
        simp only [linked_hashmap.chainStep, List.getD_eq_getElem?_getD]
        rw [List.getElem?_set_self (by rw [hbs]; exact hxlt)]
        rfl
      rw [hget]
      simp
    · have hget : (linked_hashmap.chainStep f L bs x).getD i []
          = bs.getD i [] := by
        simp only [linked_hashmap.chainStep, List.getD_eq_getElem?_getD]
        rw [List.getElem?_set_ne hx]
      rw [hget]
      have hfx : (fun nid => f nid % L == i) x = false := by
        simpa using hx
      simp [List.filter_cons, hfx]

/-! ## Frame and well-formedness lemmas for `rehash` and `check_and_rehash` -/

namespace linked_hashmap

theorem rehash_order (m : linked_hashmap) (n : Nat) : (m.rehash n).order = m.order := rfl

theorem rehash_data (m : linked_hashmap) (n : Nat) : (m.rehash n).data = m.data := rfl

theorem rehash_self (m : linked_hashmap) (n : Nat) : (m.rehash n).self = m.self := rfl

theorem rehash_nextId (m : linked_hashmap) (n : Nat) : (m.rehash n).nextId = m.nextId := rfl

theorem rehash_element_count (m : linked_hashmap) (n : Nat) :
    (m.rehash n).element_count = m.element_count := rfl

theorem rehash_keyOf (m : linked_hashmap) (n : Nat) : (m.rehash n).keyOf = m.keyOf := rfl

theorem rehash_valOf (m : linked_hashmap) (n : Nat) : (m.rehash n).valOf = m.valOf := rfl

theorem rehash_entriesList (m : linked_hashmap) (n : Nat) :
    (m.rehash n).entriesList = m.entriesList := rfl

theorem rehash_buckets_length (m : linked_hashmap) (n : Nat) :
    (m.rehash n).buckets.length = n := by
  show (m.order.foldl (chainStep m.keyOf n) (List.replicate n [])).length = n
  rw [foldl_chain_length, List.length_replicate]

theorem rehash_buckets_getD (m : linked_hashmap) (n : Nat) {i : Nat} (hi : i < n) :
    (m.rehash n).buckets.getD i []
      = (m.order.filter (fun nid => m.keyOf nid % n == i)).reverse := by
  show (m.order.foldl (chainStep m.keyOf n) (List.replicate n [])).getD i [] = _
  rw [foldl_chain_getD m.keyOf n m.order _ (List.length_replicate n []) i hi]
  simp

theorem wf_rehash {m : linked_hashmap} (hm : m.WF) {n : Nat} (hn : 2 ≤ n) :
    (m.rehash n).WF := by
  refine ⟨?_, hm.count_eq, hm.order_nodup, hm.order_ids, hm.two_le_nextId,
    hm.keys_nodup, ?_, hm.data_live⟩
  · rw [rehash_buckets_length]; exact hn
  · intro i hi
    rw [rehash_buckets_length] at hi
    rw [rehash_buckets_getD m n hi, rehash_buckets_length]
    rfl

theorem check_and_rehash_order (m : linked_hashmap) :
    m.check_and_rehash.order = m.order := by
  unfold check_and_rehash; split <;> rfl

theorem check_and_rehash_data (m : linked_hashmap) :
    m.check_and_rehash.data = m.data := by
  unfold check_and_rehash; split <;> rfl

theorem check_and_rehash_self (m : linked_hashmap) :
    m.check_and_rehash.self = m.self := by
  unfold check_and_rehash; split <;> rfl

theorem check_and_rehash_nextId (m : linked_hashmap) :
    m.check_and_rehash.nextId = m.nextId := by
  unfold check_and_rehash; split <;> rfl

theorem check_and_rehash_element_count (m : linked_hashmap) :
    m.check_and_rehash.element_count = m.element_count := by
  unfold check_and_rehash; split <;> rfl

theorem check_and_rehash_keyOf (m : linked_hashmap) :
    m.check_and_rehash.keyOf = m.keyOf := by
  unfold check_and_rehash; split <;> rfl

theorem check_and_rehash_buckets_length (m : linked_hashmap) :
    m.check_and_rehash.buckets.length
      = (if 3 * m.buckets.length < 4 * m.element_count then m.buckets.length * 2
         else m.buckets.length) := by
  unfold check_and_rehash
  split
  · rw [rehash_buckets_length]
  · rfl

theorem wf_check_and_rehash {m : linked_hashmap} (hm : m.WF) :
    m.check_and_rehash.WF := by
  unfold check_and_rehash
  split
  · exact wf_rehash hm (Nat.le_trans hm.bucket_len (Nat.le_mul_of_pos_right _ (by decide)))
  · exact hm

/-! ## `find_node` correctness -/

theorem keys_nodup_inj {m : linked_hashmap} (hm : m.WF) {x y : Nat}
    (hx : x ∈ m.order) (hy : y ∈ m.order) (hk : m.keyOf x = m.keyOf y) : x = y :=
  List.inj_on_of_nodup_map hm.keys_nodup hx hy hk

theorem find_node_eq_some_iff {m : linked_hashmap} (hm : m.WF) {k nid : Nat} :
    m.find_node k = some nid ↔ nid ∈ m.order ∧ m.keyOf nid = k := by
  have hblen : 0 < m.buckets.length := Nat.lt_of_lt_of_le (by decide) hm.bucket_len
  have hidx : k % m.buckets.length < m.buckets.length := Nat.mod_lt _ hblen
  have hbucket := hm.bucket_eq (k % m.buckets.length) hidx
  constructor
  · intro h
    have h2 : (m.buckets.getD (k % m.buckets.length) []).find?
        (fun x => m.keyOf x == k) = some nid := h
    have hmem : nid ∈ m.buckets.getD (k % m.buckets.length) [] :=
      List.mem_of_find?_eq_some h2
    have hkey := List.find?_some h2
    rw [hbucket, List.mem_reverse, List.mem_filter] at hmem
    exact ⟨hmem.1, by simpa using hkey⟩
  · rintro ⟨hmem, rfl⟩
    apply find?_eq_some_of_unique
    · rw [hbucket, List.mem_reverse, List.mem_filter]
      exact ⟨hmem, by simp⟩
    · simp
    · intro x hx hpx
      rw [hbucket, List.mem_reverse, List.mem_filter] at hx
      exact keys_nodup_inj hm hx.1 hmem (by simpa using hpx)

theorem find_node_eq_none_iff {m : linked_hashmap} (hm : m.WF) {k : Nat} :
    m.find_node k = none ↔ k ∉ m.keys := by
  constructor
  · intro h hk
    rw [keys, List.mem_map] at hk
    obtain ⟨nid, hnid, hkey⟩ := hk
    rw [← Option.not_isSome_iff_eq_none] at h
    exact h (((find_node_eq_some_iff hm).2 ⟨hnid, hkey⟩) ▸ rfl)
  · intro hk
    cases hfind : m.find_node k with
    | none => rfl
    | some nid =>
      obtain ⟨hmem, hkey⟩ := (find_node_eq_some_iff hm).1 hfind
      exact absurd (List.mem_map.2 ⟨nid, hmem, hkey⟩) hk

theorem find_node_isSome_iff {m : linked_hashmap} (hm : m.WF) {k : Nat} :
    (m.find_node k).isSome = true ↔ k ∈ m.keys := by
  rw [← Decidable.not_iff_not, Option.not_isSome_iff_eq_none]
  exact find_node_eq_none_iff hm

/-! ## `insert` lemmas -/

theorem getD_set_self {α : Type} (l : List α) {i : Nat} (h : i < l.length) (v d : α) :
    (l.set i v).getD i d = v := by
  rw [List.getD_eq_getElem?_getD, List.getElem?_set_self h]
  rfl

theorem getD_set_ne {α : Type} (l : List α) {i j : Nat} (h : i ≠ j) (v d : α) :
    (l.set i v).getD j d = l.getD j d := by
  rw [List.getD_eq_getElem?_getD, List.getElem?_set_ne h, ← List.getD_eq_getElem?_getD]

theorem insert_present {m : linked_hashmap} {k v nid : Nat}
    (h : m.find_node k = some nid) :
    m.insert k v = (m, ⟨some nid, some m.self⟩, false) := by
  simp only [insert, h]

/-- The state produced by inserting an absent key, spelled out. -/
theorem insert_absent_fst {m : linked_hashmap} {k v : Nat}
    (habs : m.find_node k = none) :
    (m.insert k v).1 =
      { m.check_and_rehash with
        order := m.check_and_rehash.order ++ [m.check_and_rehash.nextId]
        data := fun x => if x = m.check_and_rehash.nextId then some ⟨k, v⟩
                         else m.check_and_rehash.data x
        buckets := m.check_and_rehash.buckets.set (k % m.check_and_rehash.buckets.length)
          (m.check_and_rehash.nextId ::
            m.check_and_rehash.buckets.getD (k % m.check_and_rehash.buckets.length) [])
        element_count := m.check_and_rehash.element_count + 1
        nextId := m.check_and_rehash.nextId + 1 } := by
  simp only [insert, habs]

theorem insert_absent_snd {m : linked_hashmap} {k v : Nat}
    (habs : m.find_node k = none) :
    (m.insert k v).2 = (⟨some m.nextId, some m.self⟩, true) := by
  simp only [insert, habs, check_and_rehash_nextId]

theorem insert_absent_order {m : linked_hashmap} {k v : Nat}
    (habs : m.find_node k = none) :
    (m.insert k v).1.order = m.order ++ [m.nextId] := by
  rw [insert_absent_fst habs]
  simp [check_and_rehash_order, check_and_rehash_nextId]

theorem insert_absent_self {m : linked_hashmap} {k v : Nat}
    (habs : m.find_node k = none) :
    (m.insert k v).1.self = m.self := by
  rw [insert_absent_fst habs]
  simp [check_and_rehash_self]

theorem insert_absent_element_count {m : linked_hashmap} {k v : Nat}
    (habs : m.find_node k = none) :
    (m.insert k v).1.element_count = m.element_count + 1 := by
  rw [insert_absent_fst habs]
  simp [check_and_rehash_element_count]

theorem insert_absent_nextId {m : linked_hashmap} {k v : Nat}
    (habs : m.find_node k = none) :
    (m.insert k v).1.nextId = m.nextId + 1 := by
  rw [insert_absent_fst habs]
  simp [check_and_rehash_nextId]

theorem insert_absent_buckets_length {m : linked_hashmap} {k v : Nat}
    (habs : m.find_node k = none) :
    (m.insert k v).1.buckets.length
      = (if 3 * m.buckets.length < 4 * m.element_count then m.buckets.length * 2
         else m.buckets.length) := by
  rw [insert_absent_fst habs]
  show (m.check_and_rehash.buckets.set _ _).length = _
  rw [List.length_set, check_and_rehash_buckets_length]

theorem insert_absent_keyOf_new {m : linked_hashmap} {k v : Nat}
    (habs : m.find_node k = none) :
    (m.insert k v).1.keyOf m.nextId = k := by
  rw [insert_absent_fst habs]
  simp [keyOf, keyOfData, check_and_rehash_nextId]

theorem insert_absent_valOf_new {m : linked_hashmap} {k v : Nat}
    (habs : m.find_node k = none) :
    (m.insert k v).1.valOf m.nextId = v := by
  rw [insert_absent_fst habs]
  simp [valOf, valOfData, check_and_rehash_nextId]

theorem insert_absent_keyOf_old {m : linked_hashmap} {k v : Nat}
    (habs : m.find_node k = none) {x : Nat} (hx : x ≠ m.nextId) :
    (m.insert k v).1.keyOf x = m.keyOf x := by
  rw [insert_absent_fst habs]
  simp only [keyOf, check_and_rehash_nextId, if_neg hx, check_and_rehash_data]

theorem insert_absent_valOf_old {m : linked_hashmap} {k v : Nat}
    (habs : m.find_node k = none) {x : Nat} (hx : x ≠ m.nextId) :
    (m.insert k v).1.valOf x = m.valOf x := by
  rw [insert_absent_fst habs]
  simp only [valOf, check_and_rehash_nextId, if_neg hx, check_and_rehash_data]

theorem notMem_order_of_nextId {m : linked_hashmap} (hm : m.WF) :
    m.nextId ∉ m.order := fun hmem =>
  absurd (hm.order_ids _ hmem).2 (Nat.lt_irrefl _)

theorem insert_absent_entries {m : linked_hashmap} (hm : m.WF) {k v : Nat}
    (habs : m.find_node k = none) :
    (m.insert k v).1.entriesList = m.entriesList ++ [(k, v)] := by
  rw [entriesList, insert_absent_order habs, List.map_append]
  congr 1
  · apply List.map_congr_left
    intro x hx
    have hxne : x ≠ m.nextId := fun h => notMem_order_of_nextId hm (h ▸ hx)
    rw [insert_absent_keyOf_old habs hxne, insert_absent_valOf_old habs hxne]
  · simp [insert_absent_keyOf_new habs, insert_absent_valOf_new habs]

theorem insert_absent_keys {m : linked_hashmap} (hm : m.WF) {k v : Nat}
    (habs : m.find_node k = none) :
    (m.insert k v).1.keys = m.keys ++ [k] := by
  rw [keys, insert_absent_order habs, List.map_append]
  congr 1
  · apply List.map_congr_left
    intro x hx
    exact insert_absent_keyOf_old habs fun h => notMem_order_of_nextId hm (h ▸ hx)
  · simp [insert_absent_keyOf_new habs]

/-- Well-formedness of any state whose fields are those produced by
inserting an absent key `k` into a well-formed state `M`. -/
theorem wf_insert_parts {M : linked_hashmap} (hM : M.WF) {k v : Nat}
    (hk : k ∉ M.keys) (R : linked_hashmap)
    (horder : R.order = M.order ++ [M.nextId])
    (hdata : R.data = fun x => if x = M.nextId then some ⟨k, v⟩ else M.data x)
    (hbuckets : R.buckets = M.buckets.set (k % M.buckets.length)
      (M.nextId :: M.buckets.getD (k % M.buckets.length) []))
    (hcount : R.element_count = M.element_count + 1)
    (hnext : R.nextId = M.nextId + 1) :
    R.WF := by
  have hfresh : M.nextId ∉ M.order := notMem_order_of_nextId hM
  have hblen : 0 < M.buckets.length := Nat.lt_of_lt_of_le (by decide) hM.bucket_len
  have hidx : k % M.buckets.length < M.buckets.length := Nat.mod_lt _ hblen
  have hkey : ∀ x, R.keyOf x = if x = M.nextId then k else M.keyOf x := by
    intro x
    rw [keyOf, keyOf, hdata]
    by_cases hx : x = M.nextId
    · simp [hx, keyOfData]
    · simp [hx]
  have hkeyold : ∀ x ∈ M.order, R.keyOf x = M.keyOf x := by
    intro x hx
    rw [hkey x, if_neg (fun (heq : x = M.nextId) => hfresh (heq ▸ hx))]
  have hkeynew : R.keyOf M.nextId = k := by rw [hkey]; simp
  have hRlen : R.buckets.length = M.buckets.length := by
    rw [hbuckets, List.length_set]
  have hmapold : M.order.map R.keyOf = M.order.map M.keyOf := List.map_congr_left hkeyold
  refine ⟨?_, ?_, ?_, ?_, ?_, ?_, ?_, ?_⟩
  · rw [hRlen]; exact hM.bucket_len
  · rw [hcount, horder, List.length_append, hM.count_eq]
    rfl
  · rw [horder, List.nodup_append]
    refine ⟨hM.order_nodup, List.nodup_singleton _, ?_⟩
    intro a ha hb
    rw [List.mem_singleton] at hb
    exact hfresh (hb ▸ ha)
  · intro nid hnid
    rw [horder, List.mem_append, List.mem_singleton] at hnid
    rw [hnext]
    rcases hnid with h | rfl
    · obtain ⟨h2, hlt⟩ := hM.order_ids nid h
      exact ⟨h2, Nat.lt_succ_of_lt hlt⟩
    · exact ⟨hM.two_le_nextId, Nat.lt_succ_self _⟩
  · rw [hnext]
    exact Nat.le_succ_of_le hM.two_le_nextId
  · rw [horder, List.map_append, hmapold]
    have hone : [M.nextId].map R.keyOf = [k] := by simp [hkeynew]
    rw [hone, List.nodup_append]
    refine ⟨hM.keys_nodup, List.nodup_singleton _, ?_⟩
    intro a ha hb
    rw [List.mem_singleton] at hb
    exact hk (hb ▸ ha)
  · intro i hi
    rw [hRlen] at hi
    have hfilterold : ∀ (j : Nat),
        M.order.filter (fun x => R.keyOf x % M.buckets.length == j)
          = M.order.filter (fun x => M.keyOf x % M.buckets.length == j) :=
      fun j => List.filter_congr fun x hx => by rw [hkeyold x hx]
    rw [hRlen, horder, hbuckets, List.filter_append]
    by_cases hcase : k % M.buckets.length = i
    · have hget : (M.buckets.set (k % M.buckets.length)
          (M.nextId :: M.buckets.getD (k % M.buckets.length) [])).getD i []
            = M.nextId :: M.buckets.getD i [] := by
        rw [← hcase]
        exact getD_set_self _ hidx _ _
      have hsing : [M.nextId].filter (fun x => R.keyOf x % M.buckets.length == i)
          = [M.nextId] := by
        simp only [List.filter_cons, List.filter_nil]
        rw [hkeynew, hcase]
        simp
      rw [hget, hsing, hfilterold i, List.reverse_append,
        hM.bucket_eq i hi]
      simp
    · have hget : (M.buckets.set (k % M.buckets.length)
          (M.nextId :: M.buckets.getD (k % M.buckets.length) [])).getD i []
            = M.buckets.getD i [] := by
        exact getD_set_ne _ hcase _ _
      have hsing : [M.nextId].filter (fun x => R.keyOf x % M.buckets.length == i)
          = [] := by
        simp only [List.filter_cons, List.filter_nil]
        rw [hkeynew]
        simp [hcase]
      rw [hget, hsing, List.append_nil, hfilterold i, hM.bucket_eq i hi]
  · intro nid
    rw [hdata, horder, List.mem_append, List.mem_singleton]
    by_cases hnid : nid = M.nextId
    · simp [hnid]
    · simp only [if_neg hnid]
      rw [← hM.data_live nid]
      simp [hnid]

theorem wf_insert_absent {m : linked_hashmap} (hm : m.WF) {k v : Nat}
    (habs : m.find_node k = none) :
    (m.insert k v).1.WF := by
  have hm1 : m.check_and_rehash.WF := wf_check_and_rehash hm
  have hk1 : k ∉ m.check_and_rehash.keys := by
    show k ∉ m.check_and_rehash.order.map m.check_and_rehash.keyOf
    rw [check_and_rehash_order, check_and_rehash_keyOf]
    exact (find_node_eq_none_iff hm).1 habs
  refine @wf_insert_parts m.check_and_rehash hm1 k v hk1 _ ?_ ?_ ?_ ?_ ?_ <;>
    rw [@insert_absent_fst m k v habs]

theorem wf_insert {m : linked_hashmap} (hm : m.WF) (k v : Nat) :
    (m.insert k v).1.WF := by
  cases hfind : m.find_node k with
  | some nid => rw [insert_present hfind]; exact hm
  | none => exact wf_insert_absent hm hfind

/-! ## `erase` lemmas -/

theorem erase_of_guard {m : linked_hashmap} {p : iterator}
    (h : p.map ≠ some m.self ∨ p.node = some 1 ∨ p.node = some 0) :
    m.erase p = (Except.error exc.invalid_iterator, m) := by
  unfold erase
  rw [if_pos h]

theorem interior_ne_sentinels {m : linked_hashmap} (hm : m.WF) {nid : Nat}
    (hmem : nid ∈ m.order) : nid ≠ 0 ∧ nid ≠ 1 := by
  have h2 := (hm.order_ids nid hmem).1
  omega

theorem erase_live_eq {m : linked_hashmap} (hm : m.WF) {nid : Nat}
    (hmem : nid ∈ m.order) :
    m.erase ⟨some nid, some m.self⟩ =
      (Except.ok (),
       { m with
         order := m.order.erase nid
         buckets := m.buckets.set (m.keyOf nid % m.buckets.length)
           ((m.buckets.getD (m.keyOf nid % m.buckets.length) []).erase nid)
         data := fun x => if x = nid then none else m.data x
         element_count := m.element_count - 1 }) := by
  obtain ⟨h0, h1⟩ := interior_ne_sentinels hm hmem
  unfold erase
  rw [if_neg]
  intro hcases
  rcases hcases with h | h | h
  · exact h rfl
  · exact h1 (by simpa using h)
  · exact h0 (by simpa using h)

/-- Well-formedness of any state whose fields are those produced by
erasing the live node `nid` from a well-formed state `M`. -/
theorem wf_erase_parts {M : linked_hashmap} (hM : M.WF) {nid : Nat}
    (hmem : nid ∈ M.order) (R : linked_hashmap)
    (horder : R.order = M.order.erase nid)
    (hdata : R.data = fun x => if x = nid then none else M.data x)
    (hbuckets : R.buckets = M.buckets.set (M.keyOf nid % M.buckets.length)
      ((M.buckets.getD (M.keyOf nid % M.buckets.length) []).erase nid))
    (hcount : R.element_count = M.element_count - 1)
    (hnext : R.nextId = M.nextId) :
    R.WF := by
  have hblen : 0 < M.buckets.length := Nat.lt_of_lt_of_le (by decide) hM.bucket_len
  have hidx : M.keyOf nid % M.buckets.length < M.buckets.length := Nat.mod_lt _ hblen
  have hRlen : R.buckets.length = M.buckets.length := by
    rw [hbuckets, List.length_set]
  have hkeyold : ∀ x, x ≠ nid → R.keyOf x = M.keyOf x := by
    intro x hx
    rw [keyOf, keyOf, hdata]
    simp [hx]
  have hmemerase : ∀ x, x ∈ M.order.erase nid ↔ x ≠ nid ∧ x ∈ M.order :=
    fun x => hM.order_nodup.mem_erase_iff
  have hfiltererase : ∀ (p : Nat → Bool), (M.order.erase nid).filter p
      = M.order.filter (fun x => p x && (x != nid)) := by
    intro p
    rw [hM.order_nodup.erase_eq_filter, List.filter_filter]
  have hkeyfilter : ∀ (j : Nat),
      (M.order.erase nid).filter (fun x => R.keyOf x % M.buckets.length == j)
        = (M.order.erase nid).filter (fun x => M.keyOf x % M.buckets.length == j) := by
    intro j
    apply List.filter_congr
    intro x hx
    rw [hkeyold x ((hmemerase x).1 hx).1]
  refine ⟨?_, ?_, ?_, ?_, ?_, ?_, ?_, ?_⟩
  · rw [hRlen]; exact hM.bucket_len
  · rw [hcount, horder, List.length_erase_of_mem hmem, hM.count_eq]
  · rw [horder]; exact hM.order_nodup.erase nid
  · intro x hx
    rw [horder] at hx
    rw [hnext]
    exact hM.order_ids x (List.mem_of_mem_erase hx)
  · rw [hnext]; exact hM.two_le_nextId
  · rw [horder]
    have hcongr : (M.order.erase nid).map R.keyOf = (M.order.erase nid).map M.keyOf :=
      List.map_congr_left fun x hx => hkeyold x ((hmemerase x).1 hx).1
    rw [hcongr]
    exact hM.keys_nodup.sublist (List.Sublist.map _ (List.erase_sublist nid M.order))
  · intro i hi
    rw [hRlen] at hi
    rw [hRlen, horder, hbuckets, hkeyfilter i]
    by_cases hcase : M.keyOf nid % M.buckets.length = i
    · have hget : (M.buckets.set (M.keyOf nid % M.buckets.length)
          ((M.buckets.getD (M.keyOf nid % M.buckets.length) []).erase nid)).getD i []
            = (M.buckets.getD i []).erase nid := by
        rw [← hcase]
        exact getD_set_self _ hidx _ _
      rw [hget, hM.bucket_eq i hi]
      have hnodup : ((M.order.filter
          (fun x => M.keyOf x % M.buckets.length == i)).reverse).Nodup :=
        List.nodup_reverse.2 (hM.order_nodup.filter _)
      rw [hnodup.erase_eq_filter, List.filter_reverse, List.filter_filter,
        hfiltererase]
      congr 1
      apply List.filter_congr
      intro x _
      rw [Bool.and_comm]
    · have hget : (M.buckets.set (M.keyOf nid % M.buckets.length)
          ((M.buckets.getD (M.keyOf nid % M.buckets.length) []).erase nid)).getD i []
            = M.buckets.getD i [] := by
        exact getD_set_ne _ hcase _ _
      rw [hget, hM.bucket_eq i hi, hfiltererase]
      congr 1
      apply List.filter_congr
      intro x _
      by_cases hx : x = nid
      · subst hx
        simp [hcase]
      · simp [hx]
  · intro x
    rw [hdata, horder, hmemerase x]
    by_cases hx : x = nid
    · simp [hx]
    · simp only [if_neg hx]
      rw [← hM.data_live x]
      simp [hx]

theorem erase_live_snd_wf {m : linked_hashmap} (hm : m.WF) {nid : Nat}
    (hmem : nid ∈ m.order) :
    (m.erase ⟨some nid, some m.self⟩).2.WF := by
  rw [erase_live_eq hm hmem]
  exact wf_erase_parts hm hmem _ rfl rfl rfl rfl rfl

theorem erase_live_entries {m : linked_hashmap} (hm : m.WF) {nid : Nat}
    (hmem : nid ∈ m.order) :
    (m.erase ⟨some nid, some m.self⟩).2.entriesList
      = m.entriesList.filter (fun e => e.1 != m.keyOf nid) := by
  rw [erase_live_eq hm hmem]
  show ((m.order.erase nid).map _) = _
  rw [entriesList, List.filter_map]
  have hcongr : ∀ x ∈ m.order.erase nid,
      ((fun x => if x = nid then (none : Option value_type) else m.data x) x
        |> fun d => (keyOfData d, valOfData d)) = (m.keyOf x, m.valOf x) := by
    intro x hx
    have hxne : x ≠ nid := (hm.order_nodup.mem_erase_iff.1 hx).1
    simp [hxne, keyOf, valOf]
  have hstep1 : (m.order.erase nid).map
      (fun x => (keyOf { m with
          order := m.order.erase nid
          buckets := m.buckets.set (m.keyOf nid % m.buckets.length)
            ((m.buckets.getD (m.keyOf nid % m.buckets.length) []).erase nid)
          data := fun y => if y = nid then none else m.data y
          element_count := m.element_count - 1 } x,
        valOf { m with
          order := m.order.erase nid
          buckets := m.buckets.set (m.keyOf nid % m.buckets.length)
            ((m.buckets.getD (m.keyOf nid % m.buckets.length) []).erase nid)
          data := fun y => if y = nid then none else m.data y
          element_count := m.element_count - 1 } x))
      = (m.order.erase nid).map (fun x => (m.keyOf x, m.valOf x)) := by
    apply List.map_congr_left
    intro x hx
    have hxne : x ≠ nid := (hm.order_nodup.mem_erase_iff.1 hx).1
    simp [keyOf, valOf, hxne]
  rw [hstep1]
  have hstep2 : m.order.filter
      ((fun e => e.1 != m.keyOf nid) ∘ (fun x => (m.keyOf x, m.valOf x)))
        = m.order.erase nid := by
    rw [hm.order_nodup.erase_eq_filter]
    apply List.filter_congr
    intro x hx
    show (m.keyOf x != m.keyOf nid) = (x != nid)
    by_cases hxeq : x = nid
    · simp [hxeq]
    · have hkne : m.keyOf x ≠ m.keyOf nid := fun hk =>
        hxeq (keys_nodup_inj hm hx hmem hk)
      have h1 : (m.keyOf x != m.keyOf nid) = true := by simpa using hkne
      have h2 : (x != nid) = true := by simpa using hxeq
      rw [h1, h2]
  rw [hstep2]

/-! ## `empty`, `clear`, and the reachability invariant -/

theorem wf_empty (s : Nat) : (empty s).WF := by
  refine ⟨?_, rfl, List.nodup_nil, ?_, ?_, List.nodup_nil, ?_, ?_⟩
  · show 2 ≤ (List.replicate 16 ([] : List Nat)).length
    rw [List.length_replicate]
    decide
  · intro nid hnid
    cases hnid
  · exact Nat.le_refl 2
  · intro i _
    show (List.replicate 16 ([] : List Nat)).getD i [] = _
    rw [List.getD_eq_getElem?_getD, List.getElem?_replicate]
    split <;> rfl
  · intro nid
    simp [empty]

theorem clear_entries (m : linked_hashmap) : m.clear.entriesList = [] := rfl

theorem clear_self (m : linked_hashmap) : m.clear.self = m.self := rfl

theorem wf_clear {m : linked_hashmap} (hm : m.WF) : m.clear.WF := by
  refine ⟨?_, rfl, List.nodup_nil, ?_, hm.two_le_nextId, List.nodup_nil, ?_, ?_⟩
  · show 2 ≤ (List.replicate m.buckets.length ([] : List Nat)).length
    rw [List.length_replicate]
    exact hm.bucket_len
  · intro nid hnid
    cases hnid
  · intro i _
    show (List.replicate m.buckets.length ([] : List Nat)).getD i [] = _
    rw [List.getD_eq_getElem?_getD, List.getElem?_replicate]
    split <;> rfl
  · intro nid
    simp [clear]

/-- Any `erase` call whose argument satisfies the spec's position
precondition either throws and leaves the state alone, or erases a
specific live node presented with this map's identity. -/
theorem erase_snd_cases {m : linked_hashmap} (it : iterator)
    (hval : it.map = some m.self →
      it.node = some 0 ∨ it.node = some 1 ∨ ∃ n ∈ m.order, it.node = some n) :
    (m.erase it).2 = m ∨ ∃ nid ∈ m.order, it = ⟨some nid, some m.self⟩ := by
  by_cases hguard : it.map ≠ some m.self ∨ it.node = some 1 ∨ it.node = some 0
  · left
    rw [erase_of_guard hguard]
  · push_neg at hguard
    obtain ⟨hmap, h1, h0⟩ := hguard
    rcases hval hmap with h | h | ⟨n, hn, hnode⟩
    · exact absurd h h0
    · exact absurd h h1
    · right
      refine ⟨n, hn, ?_⟩
      cases it
      simp_all

theorem erase_live_snd_self {m : linked_hashmap} (hm : m.WF) {nid : Nat}
    (hmem : nid ∈ m.order) :
    (m.erase ⟨some nid, some m.self⟩).2.self = m.self := by
  rw [erase_live_eq hm hmem]

theorem erase_live_snd_element_count {m : linked_hashmap} (hm : m.WF) {nid : Nat}
    (hmem : nid ∈ m.order) :
    (m.erase ⟨some nid, some m.self⟩).2.element_count = m.element_count - 1 := by
  rw [erase_live_eq hm hmem]

theorem erase_live_snd_buckets_length {m : linked_hashmap} (hm : m.WF) {nid : Nat}
    (hmem : nid ∈ m.order) :
    (m.erase ⟨some nid, some m.self⟩).2.buckets.length = m.buckets.length := by
  rw [erase_live_eq hm hmem]
  exact List.length_set _ _ _

theorem wf_erase {m : linked_hashmap} (hm : m.WF) (it : iterator)
    (hval : it.map = some m.self →
      it.node = some 0 ∨ it.node = some 1 ∨ ∃ n ∈ m.order, it.node = some n) :
    (m.erase it).2.WF := by
  rcases erase_snd_cases it hval with h | ⟨nid, hmem, rfl⟩
  · rw [h]; exact hm
  · exact erase_live_snd_wf hm hmem

/-! ## The load-factor invariant -/

theorem load_insert {m : linked_hashmap} (h : m.Inv) (k v : Nat) :
    4 * (m.insert k v).1.element_count ≤ 3 * (m.insert k v).1.buckets.length + 4 := by
  obtain ⟨hwf, hload⟩ := h
  cases hfind : m.find_node k with
  | some nid =>
    rw [insert_present hfind]
    exact hload
  | none =>
    rw [insert_absent_element_count hfind, insert_absent_buckets_length hfind]
    have hblen : 2 ≤ m.buckets.length := hwf.bucket_len
    by_cases hcond : 3 * m.buckets.length < 4 * m.element_count
    · rw [if_pos hcond]
      omega
    · rw [if_neg hcond]
      omega

theorem inv_insert {m : linked_hashmap} (h : m.Inv) (k v : Nat) :
    (m.insert k v).1.Inv :=
  ⟨wf_insert h.1 k v, load_insert h k v⟩

theorem inv_erase {m : linked_hashmap} (h : m.Inv) (it : iterator)
    (hval : it.map = some m.self →
      it.node = some 0 ∨ it.node = some 1 ∨ ∃ n ∈ m.order, it.node = some n) :
    (m.erase it).2.Inv := by
  refine ⟨wf_erase h.1 it hval, ?_⟩
  rcases erase_snd_cases it hval with heq | ⟨nid, hmem, rfl⟩
  · rw [heq]; exact h.2
  · rw [erase_live_snd_element_count h.1 hmem, erase_live_snd_buckets_length h.1 hmem]
    have := h.2
    omega

theorem inv_clear {m : linked_hashmap} (h : m.Inv) : m.clear.Inv := by
  refine ⟨wf_clear h.1, ?_⟩
  show 4 * 0 ≤ 3 * (List.replicate m.buckets.length ([] : List Nat)).length + 4
  omega

theorem inv_empty (s : Nat) : (empty s).Inv := by
  refine ⟨wf_empty s, ?_⟩
  show 4 * 0 ≤ 3 * (List.replicate 16 ([] : List Nat)).length + 4
  rw [List.length_replicate]
  omega

/-! ## Folding `insert` over an entry list (copy construction, assignment) -/

theorem keys_eq_entries_fst (m : linked_hashmap) :
    m.entriesList.map Prod.fst = m.keys := by
  rw [entriesList, keys, List.map_map]
  rfl

theorem fold_insert_spec :
    ∀ (l : List (Nat × Nat)) (m : linked_hashmap), m.WF →
      ((m.entriesList ++ l).map Prod.fst).Nodup →
      ((l.foldl (fun acc e => (acc.insert e.1 e.2).1) m).WF ∧
       (l.foldl (fun acc e => (acc.insert e.1 e.2).1) m).entriesList
         = m.entriesList ++ l ∧
       (l.foldl (fun acc e => (acc.insert e.1 e.2).1) m).self = m.self) := by
  intro l
  induction l with
  | nil =>
    intro m hm _
    exact ⟨hm, by simp, rfl⟩
  | cons e t ih =>
    intro m hm hnodup
    obtain ⟨k, v⟩ := e
    have hknotin : k ∉ m.keys := by
      rw [List.map_append, List.nodup_append] at hnodup
      intro hk
      rw [← keys_eq_entries_fst] at hk
      exact hnodup.2.2 hk (by simp)
    have hfind : m.find_node k = none := (find_node_eq_none_iff hm).2 hknotin
    have hwf' : (m.insert k v).1.WF := wf_insert_absent hm hfind
    have hentries' : (m.insert k v).1.entriesList = m.entriesList ++ [(k, v)] :=
      insert_absent_entries hm hfind
    have hnodup' : (((m.insert k v).1.entriesList ++ t).map Prod.fst).Nodup := by
      rw [hentries', List.append_assoc]
      simpa using hnodup
    obtain ⟨hwfr, hentr, hselfr⟩ := ih (m.insert k v).1 hwf' hnodup'
    rw [List.foldl_cons]
    refine ⟨hwfr, ?_, ?_⟩
    · rw [hentr, hentries', List.append_assoc]
      rfl
    · rw [hselfr, insert_absent_self hfind]

theorem fold_insert_inv :
    ∀ (l : List (Nat × Nat)) (m : linked_hashmap), m.Inv →
      (l.foldl (fun acc e => (acc.insert e.1 e.2).1) m).Inv := by
  intro l
  induction l with
  | nil => intro m hm; exact hm
  | cons e t ih =>
    intro m hm
    rw [List.foldl_cons]
    exact ih _ (inv_insert hm e.1 e.2)

theorem wf_copy_base (s L : Nat) (hL : 2 ≤ L) :
    linked_hashmap.WF
      { self := s, order := [], data := fun _ => none,
        buckets := List.replicate L [], element_count := 0, nextId := 2 } := by
  refine ⟨?_, rfl, List.nodup_nil, ?_, Nat.le_refl 2, List.nodup_nil, ?_, ?_⟩
  · show 2 ≤ (List.replicate L ([] : List Nat)).length
    rw [List.length_replicate]
    exact hL
  · intro nid hnid
    cases hnid
  · intro i _
    show (List.replicate L ([] : List Nat)).getD i [] = _
    rw [List.getD_eq_getElem?_getD, List.getElem?_replicate]
    split <;> rfl
  · intro nid
    simp

theorem copy_spec {other : linked_hashmap} (h : other.WF) (s : Nat) :
    (other.copy s).WF ∧ (other.copy s).entriesList = other.entriesList ∧
      (other.copy s).self = s := by
  have hbase := wf_copy_base s other.buckets.length h.bucket_len
  have hnodup : ((List.nil ++ other.entriesList).map Prod.fst).Nodup := by
    rw [List.nil_append, keys_eq_entries_fst]
    exact h.keys_nodup
  obtain ⟨hwf, hent, hself⟩ := fold_insert_spec other.entriesList _ hbase hnodup
  exact ⟨hwf, by simpa using hent, hself⟩

theorem inv_copy {other : linked_hashmap} (h : other.Inv) (s : Nat) :
    (other.copy s).Inv := by
  apply fold_insert_inv
  refine ⟨wf_copy_base s other.buckets.length h.1.bucket_len, ?_⟩
  show 4 * 0 ≤ 3 * (List.replicate other.buckets.length ([] : List Nat)).length + 4
  omega

theorem assign_spec {m other : linked_hashmap} (hm : m.WF) (hother : other.WF)
    (hne : m.self ≠ other.self) :
    (m.assign other).WF ∧ (m.assign other).entriesList = other.entriesList ∧
      (m.assign other).self = m.self := by
  unfold assign
  rw [if_neg hne]
  have hnodup : ((m.clear.entriesList ++ other.entriesList).map Prod.fst).Nodup := by
    rw [clear_entries, List.nil_append, keys_eq_entries_fst]
    exact hother.keys_nodup
  obtain ⟨hwf, hent, hself⟩ := fold_insert_spec other.entriesList m.clear (wf_clear hm) hnodup
  refine ⟨hwf, ?_, ?_⟩
  · rw [hent, clear_entries, List.nil_append]
  · rw [hself, clear_self]

theorem inv_assign {m other : linked_hashmap} (hm : m.Inv) :
    (m.assign other).Inv := by
  unfold assign
  split
  · exact hm
  · exact fold_insert_inv _ _ (inv_clear hm)

/-- Every state reachable through the public interface is well-formed
and satisfies the load bound. -/
theorem reachable_inv : ∀ {m : linked_hashmap}, Reachable m → m.Inv := by
  intro m h
  induction h with
  | empty s => exact inv_empty s
  | insert k v _ ih => exact inv_insert ih k v
  | erase it _ hval ih => exact inv_erase ih it hval
  | clear _ ih => exact inv_clear ih
  | copy s _ ih => exact inv_copy ih s
  | assign _ _ ihm _ => exact inv_assign ihm

theorem reachable_wf {m : linked_hashmap} (h : Reachable m) : m.WF :=
  (reachable_inv h).1

/-! ## The derived `next`/`prev` pointers and list iteration -/

theorem notMem_left_of_order_split {m : linked_hashmap} (hm : m.WF)
    {l₁ l₂ : List Nat} {n : Nat} (h : m.order = l₁ ++ n :: l₂) : n ∉ l₁ := by
  intro hn
  have := hm.order_nodup
  rw [h, List.nodup_append] at this
  exact this.2.2 hn (List.mem_cons_self n l₂)

theorem nodeNext_at {m : linked_hashmap} (hm : m.WF) {l₁ l₂ : List Nat} {n : Nat}
    (h : m.order = l₁ ++ n :: l₂) : m.nodeNext n = l₂.headD 1 := by
  have hmem : n ∈ m.order := by rw [h]; simp
  have hn0 : n ≠ 0 := (interior_ne_sentinels hm hmem).1
  unfold nodeNext
  rw [if_neg hn0, h, findIdx?_append_cons l₁ l₂ (notMem_left_of_order_split hm h)]
  show (l₁ ++ n :: l₂).getD (l₁.length + 1) 1 = l₂.headD 1
  rw [List.getD_eq_getElem?_getD,
    List.getElem?_append_right (Nat.le_add_right l₁.length 1)]
  simp only [Nat.add_sub_cancel_left]
  rw [List.headD_eq_head?_getD, List.head?_eq_getElem?, List.getElem?_cons_succ]

theorem nodePrev_at {m : linked_hashmap} (hm : m.WF) {l₁ l₂ : List Nat} {n : Nat}
    (h : m.order = l₁ ++ n :: l₂) : m.nodePrev n = l₁.getLastD 0 := by
  have hmem : n ∈ m.order := by rw [h]; simp
  have hn1 : n ≠ 1 := (interior_ne_sentinels hm hmem).2
  unfold nodePrev
  rw [if_neg hn1, h, findIdx?_append_cons l₁ l₂ (notMem_left_of_order_split hm h)]
  show (if l₁.length = 0 then 0 else (l₁ ++ n :: l₂).getD (l₁.length - 1) 0)
    = l₁.getLastD 0
  cases l₁ with
  | nil => simp
  | cons a t =>
    rw [if_neg (by simp)]
    have hlt : (a :: t).length - 1 < (a :: t).length := by simp
    rw [List.getD_eq_getElem?_getD, List.getElem?_append_left hlt,
      List.getLastD_eq_getLast?, List.getLast?_eq_getElem?]

theorem nodePrev_tail (m : linked_hashmap) : m.nodePrev 1 = m.order.getLastD 0 := by
  unfold nodePrev
  rw [if_pos rfl]

theorem headD_eq_one_iff {m : linked_hashmap} (hm : m.WF) :
    m.order.headD 1 = 1 ↔ m.order = [] := by
  cases horder : m.order with
  | nil => simp
  | cons a t =>
    have hmem : a ∈ m.order := by rw [horder]; simp
    have := (interior_ne_sentinels hm hmem).2
    simp [this]

theorem getLastD_eq_zero_iff {m : linked_hashmap} (hm : m.WF) :
    m.order.getLastD 0 = 0 ↔ m.order = [] := by
  cases horder : m.order with
  | nil => simp
  | cons a t =>
    constructor
    · intro hlast
      have hmem : (a :: t).getLast (by simp) ∈ m.order := by
        rw [horder]
        exact List.getLast_mem _
      have h0 := (interior_ne_sentinels hm hmem).1
      rw [List.getLastD_eq_getLast?, List.getLast?_eq_getLast _ (by simp)] at hlast
      exact absurd hlast h0
    · intro h
      cases h

theorem walk_suffix {m : linked_hashmap} (hm : m.WF) :
    ∀ (l₂ l₁ : List Nat), m.order = l₁ ++ l₂ →
      m.walk (l₂.length + 1) (l₂.headD 1) = l₂.map (fun x => (m.keyOf x, m.valOf x)) := by
  intro l₂
  induction l₂ with
  | nil =>
    intro l₁ _
    rfl
  | cons n t ih =>
    intro l₁ h
    have hmem : n ∈ m.order := by rw [h]; simp
    have hn1 : n ≠ 1 := (interior_ne_sentinels hm hmem).2
    show m.walk (t.length + 1 + 1) n = _
    rw [walk, if_neg hn1, nodeNext_at hm h]
    rw [ih (l₁ ++ [n]) (by rw [h, List.append_assoc]; rfl)]
    rfl

theorem iterList_eq_entriesList {m : linked_hashmap} (hm : m.WF) :
    m.iterList = m.entriesList := by
  unfold iterList
  rw [hm.count_eq]
  exact walk_suffix hm m.order [] rfl

/-! ## Simulation of `runStep` by `specStep` -/

theorem findIt_of_find_node_some {m : linked_hashmap} {k nid : Nat}
    (h : m.find_node k = some nid) : m.findIt k = ⟨some nid, some m.self⟩ := by
  unfold findIt
  rw [h]

theorem findIt_of_find_node_none {m : linked_hashmap} {k : Nat}
    (h : m.find_node k = none) : m.findIt k = ⟨some 1, some m.self⟩ := by
  unfold findIt
  rw [h]

theorem findIt_valid {m : linked_hashmap} (hm : m.WF) (k : Nat) :
    (m.findIt k).map = some m.self →
      (m.findIt k).node = some 0 ∨ (m.findIt k).node = some 1 ∨
        ∃ n ∈ m.order, (m.findIt k).node = some n := by
  intro _
  cases hfind : m.find_node k with
  | some nid =>
    right; right
    refine ⟨nid, ((find_node_eq_some_iff hm).1 hfind).1, ?_⟩
    rw [findIt_of_find_node_some hfind]
  | none =>
    right; left
    rw [findIt_of_find_node_none hfind]

theorem entries_any_key {m : linked_hashmap} {k : Nat} :
    (m.entriesList.any (fun e => e.1 == k) = true) ↔ k ∈ m.keys := by
  rw [List.any_eq_true, ← keys_eq_entries_fst]
  constructor
  · rintro ⟨e, he, heq⟩
    exact List.mem_map.2 ⟨e, he, by simpa using heq⟩
  · intro hk
    obtain ⟨e, he, heq⟩ := List.mem_map.1 hk
    exact ⟨e, he, by simpa using heq⟩

theorem runStep_ins_entries {m : linked_hashmap} (hinv : m.Inv) (k v : Nat) :
    (runStep m (Op.ins k v)).entriesList = specStep m.entriesList (Op.ins k v) := by
  have hm := hinv.1
  show (m.insert k v).1.entriesList
    = if m.entriesList.any (fun e => e.1 == k) then m.entriesList
      else m.entriesList ++ [(k, v)]
  cases hfind : m.find_node k with
  | some nid =>
    obtain ⟨hmem, hkey⟩ := (find_node_eq_some_iff hm).1 hfind
    have hany : m.entriesList.any (fun e => e.1 == k) = true :=
      entries_any_key.2 (List.mem_map.2 ⟨nid, hmem, hkey⟩)
    rw [insert_present hfind, if_pos hany]
  | none =>
    have hk : k ∉ m.keys := (find_node_eq_none_iff hm).1 hfind
    have hany : m.entriesList.any (fun e => e.1 == k) = false := by
      rw [← Bool.not_eq_true, entries_any_key]
      exact hk
    rw [insert_absent_entries hm hfind, hany]
    rfl

theorem runStep_del_entries {m : linked_hashmap} (hinv : m.Inv) (k : Nat) :
    (runStep m (Op.del k)).entriesList = specStep m.entriesList (Op.del k) := by
  have hm := hinv.1
  show (m.erase (m.findIt k)).2.entriesList
    = m.entriesList.filter (fun e => e.1 != k)
  cases hfind : m.find_node k with
  | none =>
    rw [findIt_of_find_node_none hfind, erase_of_guard (Or.inr (Or.inl rfl))]
    have hk : k ∉ m.keys := (find_node_eq_none_iff hm).1 hfind
    have hall : ∀ e ∈ m.entriesList, (e.1 != k) = true := by
      intro e he
      have : e.1 ∈ m.keys := by
        rw [← keys_eq_entries_fst]
        exact List.mem_map.2 ⟨e, he, rfl⟩
      simpa using fun (heq : e.1 = k) => hk (heq ▸ this)
    exact (List.filter_eq_self.2 hall).symm
  | some nid =>
    obtain ⟨hmem, hkey⟩ := (find_node_eq_some_iff hm).1 hfind
    rw [findIt_of_find_node_some hfind, erase_live_entries hm hmem, hkey]

theorem inv_runStep {m : linked_hashmap} (hinv : m.Inv) (op : Op) :
    (runStep m op).Inv := by
  cases op with
  | ins k v => exact inv_insert hinv k v
  | del k => exact inv_erase hinv (m.findIt k) (findIt_valid hinv.1 k)

theorem foldl_runStep_spec :
    ∀ (ops : List Op) (m : linked_hashmap), m.Inv →
      (ops.foldl runStep m).Inv ∧
      (ops.foldl runStep m).entriesList = ops.foldl specStep m.entriesList := by
  intro ops
  induction ops with
  | nil => intro m hm; exact ⟨hm, rfl⟩
  | cons op t ih =>
    intro m hm
    rw [List.foldl_cons, List.foldl_cons]
    obtain ⟨hinv', hent'⟩ := ih (runStep m op) (inv_runStep hm op)
    refine ⟨hinv', ?_⟩
    rw [hent']
    congr 1
    cases op with
    | ins k v => exact runStep_ins_entries hm k v
    | del k => exact runStep_del_entries hm k

theorem runOps_inv (ops : List Op) : (runOps ops).Inv :=
  (foldl_runStep_spec ops (empty 0) (inv_empty 0)).1

theorem runOps_entries (ops : List Op) : (runOps ops).entriesList = specRun ops :=
  (foldl_runStep_spec ops (empty 0) (inv_empty 0)).2

/-! ## Remaining helpers: find after insert and erase, bucket membership -/

theorem insert_success_iff {m : linked_hashmap} {k v : Nat} :
    (m.insert k v).2.2 = true ↔ m.find_node k = none := by
  cases hfind : m.find_node k with
  | some nid =>
    rw [insert_present hfind]
    simp
  | none =>
    rw [insert_absent_snd hfind]
    simp

theorem insert_absent_find {m : linked_hashmap} (hm : m.WF) {k v : Nat}
    (habs : m.find_node k = none) :
    (m.insert k v).1.find_node k = some m.nextId := by
  apply (find_node_eq_some_iff (wf_insert_absent hm habs)).2
  constructor
  · rw [insert_absent_order habs]
    simp
  · exact insert_absent_keyOf_new habs

theorem erase_live_keys {m : linked_hashmap} (hm : m.WF) {nid : Nat}
    (hmem : nid ∈ m.order) :
    (m.erase ⟨some nid, some m.self⟩).2.keys
      = m.keys.filter (fun x => x != m.keyOf nid) := by
  rw [← keys_eq_entries_fst, erase_live_entries hm hmem, ← keys_eq_entries_fst,
    List.filter_map]
  rfl

theorem erase_live_find_none {m : linked_hashmap} (hm : m.WF) {nid : Nat}
    (hmem : nid ∈ m.order) :
    (m.erase ⟨some nid, some m.self⟩).2.find_node (m.keyOf nid) = none := by
  apply (find_node_eq_none_iff (erase_live_snd_wf hm hmem)).2
  rw [erase_live_keys hm hmem]
  intro hk
  rw [List.mem_filter] at hk
  simpa using hk.2

theorem rehash_mem_bucket (m : linked_hashmap) {n : Nat} (hn : 0 < n) (nid : Nat) :
    (∃ i, i < n ∧ nid ∈ (m.rehash n).buckets.getD i []) ↔ nid ∈ m.order := by
  constructor
  · rintro ⟨i, hi, hmem⟩
    rw [rehash_buckets_getD m n hi, List.mem_reverse, List.mem_filter] at hmem
    exact hmem.1
  · intro hmem
    refine ⟨m.keyOf nid % n, Nat.mod_lt _ hn, ?_⟩
    rw [rehash_buckets_getD m n (Nat.mod_lt _ hn), List.mem_reverse, List.mem_filter]
    exact ⟨hmem, by simp⟩

theorem data_sentinel_none {m : linked_hashmap} (hm : m.WF) {nid : Nat}
    (h : nid < 2) : m.data nid = none := by
  rw [← Option.not_isSome_iff_eq_none]
  intro hsome
  have hmem := (hm.data_live nid).1 (by simpa using hsome)
  exact absurd (hm.order_ids nid hmem).1 (by omega)

theorem data_live_some {m : linked_hashmap} (hm : m.WF) {nid : Nat}
    (h : nid ∈ m.order) : ∃ e, m.data nid = some e := by
  have := (hm.data_live nid).2 h
  exact Option.isSome_iff_exists.1 this

theorem find_erase_roundtrip {m : linked_hashmap} (hm : m.WF) {k nid : Nat}
    (hfind : m.find_node k = some nid) :
    (m.erase (m.findIt k)).1 = Except.ok () ∧
    (m.erase (m.findIt k)).2.find_node k = none ∧
    (m.erase (m.findIt k)).2.findIt k = (m.erase (m.findIt k)).2.endIt := by
  obtain ⟨hmem, hkey⟩ := (find_node_eq_some_iff hm).1 hfind
  rw [findIt_of_find_node_some hfind]
  have h1 : (m.erase ⟨some nid, some m.self⟩).1 = Except.ok () := by
    rw [erase_live_eq hm hmem]
  have h2 := erase_live_find_none hm hmem
  rw [hkey] at h2
  refine ⟨h1, h2, ?_⟩
  rw [findIt_of_find_node_none h2]
  rfl

theorem reachable_foldl_insert_range :
    ∀ (l : List Nat) (m : linked_hashmap), Reachable m →
      Reachable (l.foldl (fun acc j => (acc.insert j 0).1) m) := by
  intro l
  induction l with
  | nil => intro m hm; exact hm
  | cons j t ih =>
    intro m hm
    rw [List.foldl_cons]
    exact ih _ (Reachable.insert j 0 hm)

/-! ## The claims -/

/-- C2: inserting an already-present key is a pure structural no-op:
the resulting state is the very same state (no node created, moved or
destroyed, no value overwritten), and the call returns an iterator at
the existing live node holding that key together with the flag `false`. -/
theorem claim_C2 {m : linked_hashmap} (hr : Reachable m) {k v nid : Nat}
    (h : m.find_node k = some nid) :
    m.insert k v = (m, ⟨some nid, some m.self⟩, false) ∧
    nid ∈ m.order ∧ m.keyOf nid = k :=
  ⟨insert_present h, (find_node_eq_some_iff (reachable_wf hr)).1 h⟩

theorem claim_C2_witness :
    ((empty 0).insert 3 9).1.insert 3 7
      = (((empty 0).insert 3 9).1, ⟨some 2, some 0⟩, false) ∧
    2 ∈ ((empty 0).insert 3 9).1.order ∧
    ((empty 0).insert 3 9).1.keyOf 2 = 3 :=
  claim_C2 (Reachable.insert 3 9 (Reachable.empty 0)) (by decide)

/-- C3: for every sequence of insert and erase operations starting from
an empty container, iterating from `begin()` to `end()` (by following
the `next` pointers, and equally by reading the order list) visits
exactly the surviving entries in the order of their first successful
insertion: the reference sequence in which inserting a present key
changes nothing, inserting a new key appends, and erasing removes just
that key's entry. -/
theorem claim_C3 (ops : List Op) :
    (runOps ops).iterList = specRun ops ∧
    (runOps ops).entriesList = specRun ops := by
  have hinv := runOps_inv ops
  have hent := runOps_entries ops
  exact ⟨by rw [iterList_eq_entriesList hinv.1, hent], hent⟩

/-- C6: `at` (both overloads) and the read-only `operator[]` return the
value stored for a present key and fail with `index_out_of_bound` (the
spec's NotFound) for an absent key; as pure functions of the state they
leave the container unchanged in either case. -/
theorem claim_C6 {m : linked_hashmap} (hr : Reachable m) (k : Nat) :
    (∀ nid ∈ m.order, m.keyOf nid = k →
      (m.atMut k = Except.ok (m.valOf nid) ∧
       m.atConst k = Except.ok (m.valOf nid) ∧
       m.bracketConst k = Except.ok (m.valOf nid))) ∧
    (k ∉ m.keys →
      (m.atMut k = Except.error exc.index_out_of_bound ∧
       m.atConst k = Except.error exc.index_out_of_bound ∧
       m.bracketConst k = Except.error exc.index_out_of_bound)) := by
  have hm := reachable_wf hr
  constructor
  · intro nid hmem hkey
    have hfind : m.find_node k = some nid := (find_node_eq_some_iff hm).2 ⟨hmem, hkey⟩
    refine ⟨?_, ?_, ?_⟩ <;> simp only [atMut, atConst, bracketConst] <;> rw [hfind]
  · intro hk
    have hfind : m.find_node k = none := (find_node_eq_none_iff hm).2 hk
    refine ⟨?_, ?_, ?_⟩ <;> simp only [atMut, atConst, bracketConst] <;> rw [hfind]

theorem claim_C6_witness :
    (((empty 0).insert 3 9).1.atMut 3 = Except.ok (((empty 0).insert 3 9).1.valOf 2) ∧
      ((empty 0).insert 3 9).1.valOf 2 = 9) ∧
    ((empty 0).insert 3 9).1.atConst 5 = Except.error exc.index_out_of_bound := by
  have h := claim_C6 (Reachable.insert 3 9 (Reachable.empty 0)) 3
  have h5 := claim_C6 (Reachable.insert 3 9 (Reachable.empty 0)) 5
  exact ⟨⟨(h.1 2 (by decide) (by decide)).1, by decide⟩, (h5.2 (by decide)).2.1⟩

/-- C7: `rehash` changes only bucket-chain membership.  The order list,
the entries, the element count, the container identity, the allocation
state of every node, and every dereference are unchanged; the rebuilt
chains contain exactly the live nodes; positions legal for the map
before the rehash are exactly the positions legal after it. -/
theorem claim_C7 (m : linked_hashmap) {n : Nat} (hn : 0 < n) :
    (m.rehash n).order = m.order ∧
    (m.rehash n).data = m.data ∧
    (m.rehash n).entriesList = m.entriesList ∧
    (m.rehash n).element_count = m.element_count ∧
    (m.rehash n).self = m.self ∧
    (m.rehash n).nextId = m.nextId ∧
    (m.rehash n).buckets.length = n ∧
    (∀ nid, (∃ i, i < n ∧ nid ∈ (m.rehash n).buckets.getD i []) ↔ nid ∈ m.order) ∧
    (∀ p : iterator, (m.rehash n).deref p = m.deref p) ∧
    (∀ p : iterator, PosOK m p ↔ PosOK (m.rehash n) p) :=
  ⟨rfl, rfl, rfl, rfl, rfl, rfl, rehash_buckets_length m n,
    rehash_mem_bucket m hn, fun _ => rfl, fun _ => Iff.rfl⟩

theorem claim_C7_witness :
    (((empty 0).insert 3 9).1.rehash 32).order = ((empty 0).insert 3 9).1.order ∧
    (((empty 0).insert 3 9).1.rehash 32).buckets.length = 32 := by
  have h := @claim_C7 ((empty 0).insert 3 9).1 32 (by decide)
  exact ⟨h.1, h.2.2.2.2.2.2.1⟩

/-- C9: dereference yields an entry exactly on valid-interior positions:
a live node dereferences to its stored entry, while the `end` position,
the before-begin (`head`) position and the null position have a null
`data` pointer and yield no entry (the source's unchecked sentinel
dereference is undefined and cannot produce an entry). -/
theorem claim_C9 {m : linked_hashmap} (hr : Reachable m) :
    m.deref m.endIt = none ∧
    m.deref ⟨some 0, some m.self⟩ = none ∧
    m.deref ⟨none, none⟩ = none ∧
    (∀ nid ∈ m.order, ∃ e, m.deref ⟨some nid, some m.self⟩ = some e) := by
  have hm := reachable_wf hr
  refine ⟨?_, ?_, rfl, ?_⟩
  · show m.data 1 = none
    exact data_sentinel_none hm (by omega)
  · show m.data 0 = none
    exact data_sentinel_none hm (by omega)
  · intro nid h
    exact data_live_some hm h

theorem claim_C9_witness :
    ((empty 0).insert 3 9).1.deref ((empty 0).insert 3 9).1.endIt = none ∧
    (∃ e, ((empty 0).insert 3 9).1.deref ⟨some 2, some 0⟩ = some e) := by
  have h := claim_C9 (Reachable.insert 3 9 (Reachable.empty 0))
  exact ⟨h.1, h.2.2.2 2 (by decide)⟩

/-- C10: on a default-constructed (null) position both advances throw
`invalid_iterator` for every container (the null check precedes any node
or map access, so the operation is total); two default-constructed
positions compare equal, and a default-constructed position compares
unequal to every position carrying a container identity — which every
position obtained from a container does. -/
theorem claim_C10 :
    (∀ m : linked_hashmap, m.stepFwd ⟨none, none⟩ = Except.error exc.invalid_iterator) ∧
    (∀ m : linked_hashmap, m.stepBwd ⟨none, none⟩ = Except.error exc.invalid_iterator) ∧
    iterEq ⟨none, none⟩ ⟨none, none⟩ = true ∧
    (∀ (n : Option Nat) (mid : Nat),
      iterEq ⟨none, none⟩ ⟨n, some mid⟩ = false ∧
      iterEq ⟨n, some mid⟩ ⟨none, none⟩ = false) := by
  refine ⟨?_, ?_, rfl, ?_⟩
  · intro m
    unfold stepFwd
    rw [if_pos (Or.inl rfl)]
  · intro m
    unfold stepBwd
    rw [if_pos (Or.inl rfl)]
  · intro n mid
    constructor <;> simp [iterEq]

/-- C1 (counterexample): the claimed bound `size() <= bucket_count * 0.75`
(`4 * size <= 3 * bucket_count` in exact arithmetic) fails right after
the 13th successful insertion into a fresh map: the rehash check runs
before the new element is counted, so the map still has 16 buckets while
holding 13 elements (load factor 0.8125). -/
theorem claim_C1_counterexample :
    Reachable (((List.range 12).foldl (fun acc j => (acc.insert j 0).1)
      (empty 0)).insert 12 0).1 ∧
    (((List.range 12).foldl (fun acc j => (acc.insert j 0).1)
      (empty 0)).insert 12 0).2.2 = true ∧
    ¬ (4 * (((List.range 12).foldl (fun acc j => (acc.insert j 0).1)
          (empty 0)).insert 12 0).1.element_count
        ≤ 3 * (((List.range 12).foldl (fun acc j => (acc.insert j 0).1)
          (empty 0)).insert 12 0).1.buckets.length) :=
  ⟨Reachable.insert 12 0
    (reachable_foldl_insert_range (List.range 12) (empty 0) (Reachable.empty 0)),
   by decide, by decide⟩

/-- C1 (amended): immediately after any successful insertion the count
exceeds `bucket_count * 0.75` by at most one element
(`4 * size <= 3 * bucket_count + 4`), and the bucket count has been
doubled by the proactive rehash exactly when the pre-insertion count
already exceeded the bound (the check precedes the increment of
`element_count`). -/
theorem claim_C1_amended {m : linked_hashmap} (hr : Reachable m) {k v : Nat}
    (hsucc : (m.insert k v).2.2 = true) :
    4 * (m.insert k v).1.element_count ≤ 3 * (m.insert k v).1.buckets.length + 4 ∧
    (m.insert k v).1.buckets.length
      = (if 3 * m.buckets.length < 4 * m.element_count then m.buckets.length * 2
         else m.buckets.length) := by
  have hfind := insert_success_iff.1 hsucc
  exact ⟨load_insert (reachable_inv hr) k v, insert_absent_buckets_length hfind⟩

theorem claim_C1_amended_witness :
    4 * ((empty 0).insert 5 7).1.element_count
        ≤ 3 * ((empty 0).insert 5 7).1.buckets.length + 4 ∧
    ((empty 0).insert 5 7).1.buckets.length
      = (if 3 * (empty 0).buckets.length < 4 * (empty 0).element_count
         then (empty 0).buckets.length * 2 else (empty 0).buckets.length) :=
  claim_C1_amended (Reachable.empty 0) (by decide)

/-- C4: after `insert(k, v)`, `find(k)` returns a position at a node
holding the value stored for `k` — `v` itself when `k` was absent, the
pre-existing value when it was present; erasing the position returned by
`find(k)` succeeds, and `find(k)` afterwards returns the past-the-end
position. -/
theorem claim_C4 {m : linked_hashmap} (hr : Reachable m) (k v : Nat) :
    ∃ nid,
      (m.insert k v).1.find_node k = some nid ∧
      (m.insert k v).1.findIt k = ⟨some nid, some (m.insert k v).1.self⟩ ∧
      (m.find_node k = none → (m.insert k v).1.valOf nid = v) ∧
      (∀ old, m.find_node k = some old →
        nid = old ∧ (m.insert k v).1.valOf nid = m.valOf old) ∧
      ((m.insert k v).1.erase ((m.insert k v).1.findIt k)).1 = Except.ok () ∧
      ((m.insert k v).1.erase ((m.insert k v).1.findIt k)).2.find_node k = none ∧
      ((m.insert k v).1.erase ((m.insert k v).1.findIt k)).2.findIt k
        = ((m.insert k v).1.erase ((m.insert k v).1.findIt k)).2.endIt := by
  have hm := reachable_wf hr
  cases hfind : m.find_node k with
  | none =>
    have hm1 : (m.insert k v).1.WF := wf_insert_absent hm hfind
    have hfind1 : (m.insert k v).1.find_node k = some m.nextId :=
      insert_absent_find hm hfind
    refine ⟨m.nextId, hfind1, findIt_of_find_node_some hfind1, ?_, ?_, ?_⟩
    · intro _
      exact insert_absent_valOf_new hfind
    · intro old hold
      exact absurd hold (by simp)
    · exact find_erase_roundtrip hm1 hfind1
  | some old =>
    have heq : (m.insert k v).1 = m := by rw [insert_present hfind]
    rw [heq]
    refine ⟨old, hfind, findIt_of_find_node_some hfind, ?_, ?_, ?_⟩
    · intro habs
      exact absurd habs (by simp)
    · intro old2 hold2
      cases hold2
      exact ⟨rfl, rfl⟩
    · exact find_erase_roundtrip hm hfind

theorem claim_C4_witness :
    ∃ nid,
      ((empty 0).insert 3 9).1.find_node 3 = some nid ∧
      ((empty 0).insert 3 9).1.findIt 3
        = ⟨some nid, some ((empty 0).insert 3 9).1.self⟩ ∧
      ((empty 0).find_node 3 = none → ((empty 0).insert 3 9).1.valOf nid = 9) ∧
      (∀ old, (empty 0).find_node 3 = some old →
        nid = old ∧ ((empty 0).insert 3 9).1.valOf nid = (empty 0).valOf old) ∧
      (((empty 0).insert 3 9).1.erase (((empty 0).insert 3 9).1.findIt 3)).1
        = Except.ok () ∧
      (((empty 0).insert 3 9).1.erase
        (((empty 0).insert 3 9).1.findIt 3)).2.find_node 3 = none ∧
      (((empty 0).insert 3 9).1.erase
        (((empty 0).insert 3 9).1.findIt 3)).2.findIt 3
        = (((empty 0).insert 3 9).1.erase
            (((empty 0).insert 3 9).1.findIt 3)).2.endIt :=
  claim_C4 (Reachable.empty 0) 3 9

/-- C8: copy construction and copy assignment rebuild the same entries
in the same insertion order inside the target container (the model gives
every container its own disjoint node state, so no node is shared); in
particular, after `b = copy of a` and a successful `b.insert` of a key
absent from `a`, `a.find` of that key still yields `a.end()`. -/
theorem claim_C8 {a : linked_hashmap} (hr : Reachable a) (s k v : Nat) :
    ((a.copy s).entriesList = a.entriesList ∧ (a.copy s).self = s) ∧
    (∀ t : linked_hashmap, Reachable t → t.self ≠ a.self →
      (t.assign a).entriesList = a.entriesList ∧ (t.assign a).self = t.self) ∧
    (k ∉ a.keys →
      ((a.copy s).insert k v).2.2 = true ∧ a.findIt k = a.endIt) := by
  have hwf := reachable_wf hr
  obtain ⟨hcwf, hcent, hcself⟩ := copy_spec hwf s
  refine ⟨⟨hcent, hcself⟩, ?_, ?_⟩
  · intro t hrt hne
    obtain ⟨_, hent, hself⟩ := assign_spec (reachable_wf hrt) hwf hne
    exact ⟨hent, hself⟩
  · intro hk
    have hbk : k ∉ (a.copy s).keys := by
      rw [← keys_eq_entries_fst, hcent, keys_eq_entries_fst]
      exact hk
    constructor
    · exact insert_success_iff.2 ((find_node_eq_none_iff hcwf).2 hbk)
    · rw [findIt_of_find_node_none ((find_node_eq_none_iff hwf).2 hk)]
      rfl

theorem claim_C8_witness :
    ((((empty 0).insert 1 2).1.copy 9).entriesList
        = ((empty 0).insert 1 2).1.entriesList ∧
      (((empty 0).insert 1 2).1.copy 9).self = 9) ∧
    (((((empty 0).insert 1 2).1.copy 9).insert 5 6).2.2 = true ∧
      ((empty 0).insert 1 2).1.findIt 5 = ((empty 0).insert 1 2).1.endIt) := by
  have h := claim_C8 (Reachable.insert 1 2 (Reachable.empty 0)) 9 5 6
  exact ⟨h.1, h.2.2 (by decide)⟩

/-- C5: over positions satisfying the position precondition, `erase`
throws `invalid_iterator` exactly when the position does not belong to
this map or is the `end` position, and a throwing call leaves the state
unchanged; advancing a position of this map forward throws exactly at
`end`, and advancing it backward throws exactly when the referenced
node's predecessor is the `head` sentinel — at the first live node, or
at `end` of an empty map.  (The advance operators read only the
iterator, so they never mutate the container.) -/
theorem claim_C5 {m : linked_hashmap} (hr : Reachable m) (p : iterator)
    (hp : PosOK m p) :
    (((m.erase p).1 = Except.error exc.invalid_iterator)
        ↔ (p.map ≠ some m.self ∨ p.node = some 1)) ∧
    ((m.erase p).1 = Except.error exc.invalid_iterator → (m.erase p).2 = m) ∧
    (p.map = some m.self →
      ((m.stepFwd p = Except.error exc.invalid_iterator) ↔ p.node = some 1)) ∧
    (p.map = some m.self →
      ((m.stepBwd p = Except.error exc.invalid_iterator)
        ↔ p.node = some (m.order.headD 1))) := by
  have hm := reachable_wf hr
  refine ⟨?_, ?_, ?_, ?_⟩
  · by_cases hguard : p.map ≠ some m.self ∨ p.node = some 1 ∨ p.node = some 0
    · rw [erase_of_guard hguard]
      refine iff_of_true rfl ?_
      rcases hguard with h | h | h
      · exact Or.inl h
      · exact Or.inr h
      · by_cases hmap : p.map = some m.self
        · exfalso
          rcases hp hmap with h1 | ⟨n, hn, hnode⟩
          · rw [h] at h1
            cases h1
          · rw [h] at hnode
            cases hnode
            exact absurd (hm.order_ids 0 hn).1 (by omega)
        · exact Or.inl hmap
    · push_neg at hguard
      obtain ⟨hmap, h1, h0⟩ := hguard
      rcases hp hmap with hc | ⟨n, hn, hnode⟩
      · exact absurd hc h1
      · have hpeq : p = ⟨some n, some m.self⟩ := by
          cases p
          simp_all
        rw [hpeq, erase_live_eq hm hn]
        refine iff_of_false (by simp) ?_
        have hn1 : n ≠ 1 := (interior_ne_sentinels hm hn).2
        simp [hn1]
  · by_cases hguard : p.map ≠ some m.self ∨ p.node = some 1 ∨ p.node = some 0
    · intro _
      rw [erase_of_guard hguard]
    · push_neg at hguard
      obtain ⟨hmap, h1, h0⟩ := hguard
      rcases hp hmap with hc | ⟨n, hn, hnode⟩
      · exact absurd hc h1
      · have hpeq : p = ⟨some n, some m.self⟩ := by
          cases p
          simp_all
        rw [hpeq, erase_live_eq hm hn]
        intro h
        exact absurd h (by simp)
  · intro hmap
    rcases hp hmap with h1 | ⟨n, hn, hnode⟩
    · refine iff_of_true ?_ h1
      unfold stepFwd
      rw [if_pos (Or.inr h1)]
    · have hn1 : n ≠ 1 := (interior_ne_sentinels hm hn).2
      refine iff_of_false ?_ ?_
      · unfold stepFwd
        rw [if_neg]
        · simp
        · rw [hnode]
          simp [hn1]
      · rw [hnode]
        simp [hn1]
  · intro hmap
    rcases hp hmap with h1 | ⟨n, hn, hnode⟩
    · unfold stepBwd
      rw [h1]
      simp only [Option.map_some']
      rw [nodePrev_tail]
      cases horder : m.order with
      | nil =>
        refine iff_of_true ?_ rfl
        rw [if_pos]
        right
        rfl
      | cons a t =>
        have hh : a ∈ m.order := by rw [horder]; simp
        have ha1 : a ≠ 1 := (interior_ne_sentinels hm hh).2
        have hlast0 : (a :: t).getLastD 0 ≠ 0 := by
          intro hz
          have h2 : m.order.getLastD 0 = 0 := by rw [horder]; exact hz
          have h3 := (getLastD_eq_zero_iff hm).1 h2
          rw [horder] at h3
          cases h3
        refine iff_of_false ?_ ?_
        · rw [if_neg]
          · simp
          · simpa using hlast0
        · exact fun h => ha1 (Option.some.inj h).symm
    · obtain ⟨l₁, l₂, horder⟩ := List.append_of_mem hn
      have hprev : m.nodePrev n = l₁.getLastD 0 := nodePrev_at hm horder
      unfold stepBwd
      rw [hnode]
      simp only [Option.map_some']
      rw [hprev]
      cases l₁ with
      | nil =>
        refine iff_of_true ?_ ?_
        · rw [if_pos]
          right
          rfl
        · rw [horder]
          rfl
      | cons a t =>
        have hlastmem : (a :: t).getLastD 0 ∈ m.order := by
          rw [horder, List.getLastD_eq_getLast?,
            List.getLast?_eq_getLast (a :: t) (by simp)]
          simp only [Option.getD_some]
          exact List.mem_append.2 (Or.inl (List.getLast_mem _))
        have hlast0 : (a :: t).getLastD 0 ≠ 0 :=
          (interior_ne_sentinels hm hlastmem).1
        have hna : n ≠ a := fun heq =>
          notMem_left_of_order_split hm horder (heq ▸ List.mem_cons_self a t)
        refine iff_of_false ?_ ?_
        · rw [if_neg]
          · simp
          · simpa using hlast0
        · rw [horder]
          exact fun h => hna (Option.some.inj h)

theorem claim_C5_witness :
    ((((((empty 0).insert 5 7).1.erase (⟨some 1, some 0⟩ : iterator)).1
          = Except.error exc.invalid_iterator)
        ↔ ((⟨some 1, some 0⟩ : iterator).map ≠ some ((empty 0).insert 5 7).1.self ∨
            (⟨some 1, some 0⟩ : iterator).node = some 1)) ∧
      ((((empty 0).insert 5 7).1.erase (⟨some 1, some 0⟩ : iterator)).1
          = Except.error exc.invalid_iterator →
        (((empty 0).insert 5 7).1.erase (⟨some 1, some 0⟩ : iterator)).2
          = ((empty 0).insert 5 7).1) ∧
      ((⟨some 1, some 0⟩ : iterator).map = some ((empty 0).insert 5 7).1.self →
        ((((empty 0).insert 5 7).1.stepFwd (⟨some 1, some 0⟩ : iterator)
            = Except.error exc.invalid_iterator)
          ↔ (⟨some 1, some 0⟩ : iterator).node = some 1)) ∧
      ((⟨some 1, some 0⟩ : iterator).map = some ((empty 0).insert 5 7).1.self →
        ((((empty 0).insert 5 7).1.stepBwd (⟨some 1, some 0⟩ : iterator)
            = Except.error exc.invalid_iterator)
          ↔ (⟨some 1, some 0⟩ : iterator).node
              = some (((empty 0).insert 5 7).1.order.headD 1)))) :=
  claim_C5 (Reachable.insert 5 7 (Reachable.empty 0)) ⟨some 1, some 0⟩
    (fun _ => Or.inl rfl)

end linked_hashmap

end LinkedHashmap
